import Mathlib

/-!
Verification development for the matching core of a regular-expression
execution library (a compiled-automaton runner with two engines: a
backtracking engine and a threaded Pike-VM-style engine, plus a
literal-prefix acceleration layer).

The definitions below are a shallow embedding of the Rust sources
(`program.rs`, `prefix.rs`, `backtracking.rs`, `threaded.rs`).  Machine
integers (`usize`, `u32`, `u8`) are modelled as `Nat` (with the sentinel
conventions of the source kept explicit); Rust's `saturating_sub` is `Nat`
subtraction; fallible lookups use `Option`.  Loops are modelled as
structural recursion, with an explicit fuel parameter where the source
loop's termination is not structural.
-/

set_option maxRecDepth 100000

namespace DfaRunner

/-- A byte of input (`u8`). -/
abbrev Byte := Fin 256

/-- The `usize::MAX` sentinel used in `accept_at_eoi` and `TableInsts.accept`. -/
def USIZE_MAX : Nat := 2 ^ 64 - 1

/-- The `u32::MAX` sentinel used in transition tables. -/
def U32_MAX : Nat := 2 ^ 32 - 1

/-- `InitStates` from `program.rs`: either a start state valid only at
position 0, or a start state valid at every position. -/
inductive InitStates where
  | Anchored (s : Nat)
  | Constant (s : Nat)
deriving DecidableEq, Repr

/-- `InitStates::state_at_pos` from `program.rs`. -/
def InitStates.state_at_pos : InitStates → List Byte → Nat → Option Nat
  | .Anchored s, _, pos => if pos = 0 then some s else none
  | .Constant s, _, _ => some s

/-- `InitStates::anchored` from `program.rs`. -/
def InitStates.anchored : InitStates → Option Nat
  | .Anchored s => some s
  | _ => none

/-- The `Instructions` trait from `program.rs`: a single-step transition
function returning `(next_state, accept)` and a state count. -/
structure Instructions where
  step : Nat → List Byte → Option Nat × Option Nat
  num_states : Nat

/-- `Program` from `program.rs` (over an arbitrary `Instructions` value). -/
structure Program where
  init : InitStates
  accept_at_eoi : List Nat
  instructions : Instructions

/-- `Program::step` (delegates to the instructions). -/
def Program.step (p : Program) (state : Nat) (input : List Byte) :
    Option Nat × Option Nat :=
  p.instructions.step state input

/-- `Program::num_states` (delegates to the instructions). -/
def Program.num_states (p : Program) : Nat :=
  p.instructions.num_states

/-- `Program::check_eoi` from `program.rs`: accept data for ending the
input in `state`, with the `usize::MAX` sentinel decoded to `none`. -/
def Program.check_eoi (p : Program) (state : Nat) : Option Nat :=
  if p.accept_at_eoi.getD state USIZE_MAX ≠ USIZE_MAX then
    some (p.accept_at_eoi.getD state USIZE_MAX)
  else
    none

/-- `Program::check_empty_match_at_end` from `program.rs`. -/
def Program.check_empty_match_at_end (p : Program) (input : List Byte) :
    Option (Nat × Nat) :=
  let pos := input.length
  match p.init.state_at_pos input pos with
  | some state =>
      if p.accept_at_eoi.getD state USIZE_MAX ≠ USIZE_MAX then
        some (pos, pos)
      else
        none
  | none => none

/-- `TableInsts` from `program.rs`: a `num_states × 256` transition table
(`u32` entries, `u32::MAX` = no transition) plus a per-state accept value
(`usize::MAX` = not accepting). -/
structure TableInsts where
  table : List Nat
  accept : List Nat

/-- `Instructions::step` for `TableInsts` from `program.rs`: one table
lookup plus one accept lookup, sentinels decoded to `Option` at the end. -/
def TableInsts.step (t : TableInsts) (state : Nat) (input : List Byte) :
    Option Nat × Option Nat :=
  let accept := t.accept.getD state USIZE_MAX
  let b : Nat := (input.headD 0).val
  let next_state := t.table.getD (state * 256 + b) U32_MAX
  (if next_state ≠ U32_MAX then some next_state else none,
   if accept ≠ USIZE_MAX then some accept else none)

/-- Package a `TableInsts` as an `Instructions` value
(`num_states = accept.len()`). -/
def TableInsts.toInstructions (t : TableInsts) : Instructions :=
  ⟨t.step, t.accept.length⟩

/-! ## Prefix and prefix searchers (`prefix.rs`) -/

/-- The `Prefix` enum from `prefix.rs`.  The `Ac` variant stores the
multi-pattern automaton; in this model the automaton is represented by its
pattern list (which determines its matching behaviour), together with the
per-pattern resume-state map. -/
inductive Pfx where
  | Empty
  | ByteSet (bs : List Bool)
  | Byte (b : Fin 256)
  | Lit (l : List (Fin 256))
  | Ac (pats : List (List (Fin 256))) (state_map : List Nat)
  | LoopWhile (bs : List Bool)
deriving DecidableEq, Repr

/-- `PrefixResult` from `prefix.rs`. -/
structure PfxResult where
  start_pos : Nat
  end_pos : Nat
  end_state : Nat
deriving DecidableEq, Repr

/-- Model of `Iterator::position` / `memchr`: index of the first element
satisfying the predicate. -/
def position (p : Byte → Bool) : List Byte → Option Nat
  | [] => none
  | c :: rest => if p c then some 0 else (position p rest).map (· + 1)

/-- Model of `memmem::TwoWaySearcher::search_in`: index of the first
occurrence of `needle` in `haystack`. -/
def searchIn (needle haystack : List Byte) : Option Nat :=
  (List.range (haystack.length + 1)).find?
    (fun i => decide (i + needle.length ≤ haystack.length ∧
      (haystack.drop i).take needle.length = needle))

/-- Model of `aho_corasick`'s overlapping match iterator on the given text:
every occurrence of every pattern as `(start, end, pattern index)`, ordered
by end position and then by pattern index (the order observed in the
repository's `test_ac_search` test). -/
def findOverlapping (pats : List (List Byte)) (text : List Byte) :
    List (Nat × Nat × Nat) :=
  (List.range (text.length + 1)).flatMap (fun e =>
    pats.enum.filterMap (fun pip =>
      if pip.2.length ≤ e ∧ (text.drop (e - pip.2.length)).take pip.2.length = pip.2 then
        some (e - pip.2.length, e, pip.1)
      else
        none))

/-- The per-kind skip function of `prefix.rs` (`SkipFn::skip` on a suffix of
the input): `Empty` matches immediately with zero width; `Byte`/`ByteSet`
scan for one byte; `Lit` runs the substring searcher (the blanket
`SimpleSkipFn` impl turns its index `x` into the zero-width span `(x, x)`);
`LoopWhile` always matches at 0 with the maximal run length.  The `Ac` kind
does not use a skip function. -/
def pfxSkip : Pfx → List Byte → Option (Nat × Nat)
  | .Empty, _ => some (0, 0)
  | .Byte b, input => (position (fun c => c = b) input).map (fun x => (x, x))
  | .ByteSet bs, input =>
      (position (fun c => bs.getD c.val false) input).map (fun x => (x, x))
  | .Lit l, input => (searchIn l input).map (fun x => (x, x))
  | .LoopWhile bs, input =>
      some (0, (input.takeWhile (fun c => bs.getD c.val false)).length)
  | .Ac _ _, _ => none

/-- The mutable state of a prefix searcher: the scan cursor `pos` (used by
the `SimpleSearcher`s, and set but never read by `AcSearcher::search`), and
the remaining overlapping-match iterator of the `AcSearcher`. -/
structure SearchState where
  pos : Nat
  acIter : List (Nat × Nat × Nat)
deriving DecidableEq, Repr

/-- `Prefix::make_searcher`: the initial searcher state for a given input. -/
def mkSearcher (pf : Pfx) (input : List Byte) : SearchState :=
  match pf with
  | .Ac pats _ => ⟨0, findOverlapping pats input⟩
  | _ => ⟨0, []⟩

/-- `PrefixSearcher::search` from `prefix.rs`.  For the simple kinds this is
`SimpleSearcher::search`: give up once `pos > input.len()`, otherwise run the
skip function on `input[pos..]` and advance `pos` past the reported end.  For
`Ac` it is `AcSearcher::search`: pop the next overlapping match, translating
the pattern index through the resume-state map — note that it reports the
match coordinates as produced by the iterator, without adding `pos`. -/
def searcherSearch (pf : Pfx) (input : List Byte) (st : SearchState) :
    Option (PfxResult × SearchState) :=
  match pf with
  | .Ac _ state_map =>
      match st.acIter with
      | [] => none
      | m :: rest =>
          some (⟨m.1, m.2.1, state_map.getD m.2.2 0⟩, ⟨st.pos, rest⟩)
  | _ =>
      if st.pos > input.length then
        none
      else
        match pfxSkip pf (input.drop st.pos) with
        | some se =>
            some (⟨st.pos + se.1, st.pos + se.2, 0⟩, ⟨st.pos + se.2 + 1, st.acIter⟩)
        | none => none

/-- `PrefixSearcher::skip_to` from `prefix.rs`.  The simple searchers just
set `pos`.  `AcSearcher::skip_to` sets `pos` and restarts the overlapping
iterator on the suffix `input[pos..]` (or the empty slice if `pos` is past
the end). -/
def searcherSkipTo (pf : Pfx) (input : List Byte) (pos : Nat)
    (st : SearchState) : SearchState :=
  match pf with
  | .Ac pats _ =>
      ⟨pos, findOverlapping pats (if pos > input.length then [] else input.drop pos)⟩
  | _ => ⟨pos, st.acIter⟩

/-- `Prefix::from_strings` from `prefix.rs`: filter out empty literals, then
pick the prefix kind by the selection policy of the source. -/
def fromStrings (l : List (List (Fin 256) × Nat)) : Pfx :=
  let strings := l.filter (fun x => !x.1.isEmpty)
  if strings.isEmpty then
    .Empty
  else if strings.length = 1 then
    if (strings.headD ([], 0)).1.length = 1 then
      .Byte ((strings.headD ([], 0)).1.headD 0)
    else
      .Lit (strings.headD ([], 0)).1
  else if (strings.map (fun x => x.1.length)).min? = some 1 then
    .ByteSet (strings.foldl (fun bs s => bs.set (s.1.headD 0).val true)
      (List.replicate 256 false))
  else
    .Ac (strings.map (fun x => x.1)) (strings.map (fun x => x.2))

/-! ## Backtracking engine (`backtracking.rs`) -/

/-- The loop body of `BacktrackingEngine::shortest_match_from`, as structural
recursion on the remaining gas `input.len() - pos`: step the program one byte
at a time from `(pos, state)`; an acceptance returns
`pos.saturating_sub(bytes_ago)`; a dead transition returns `none`; running
out of input checks `check_eoi`. -/
def smfAux (prog : Program) (input : List Byte) :
    Nat → Nat → Nat → Option Nat
  | 0, _, state => (prog.check_eoi state).map (fun b => input.length - b)
  | gas + 1, pos, state =>
      let r := prog.step state (input.drop pos)
      match r.2 with
      | some bytes_ago => some (pos - bytes_ago)
      | none =>
          match r.1 with
          | some ns => smfAux prog input gas (pos + 1) ns
          | none => none

/-- `BacktrackingEngine::shortest_match_from` from `backtracking.rs`. -/
def shortest_match_from (prog : Program) (input : List Byte)
    (pos state : Nat) : Option Nat :=
  smfAux prog input (input.length - pos) pos state

/-- `BacktrackingEngine::shortest_match_from_searcher` from
`backtracking.rs`, with explicit fuel bounding the number of candidates
tried: pull prefix candidates in order and return on the first one whose
simulation produces a match. -/
def btLoop (prog : Program) (pf : Pfx) (input : List Byte) :
    Nat → SearchState → Option (Nat × Nat)
  | 0, _ => none
  | fuel + 1, st =>
      match searcherSearch pf input st with
      | none => none
      | some (res, st') =>
          match shortest_match_from prog input res.end_pos res.end_state with
          | some e => some (res.start_pos, e)
          | none => btLoop prog pf input fuel st'

/-- Fuel sufficient for `btLoop`: each candidate either advances the cursor
(simple kinds, cursor bounded by `input.len() + 1`) or consumes one element
of the overlapping-match iterator. -/
def btFuel (pf : Pfx) (input : List Byte) : Nat :=
  input.length + 2 + (mkSearcher pf input).acIter.length

/-- `is_anchored`, referenced by `BacktrackingEngine::shortest_match`.
Modelled from the spec: the field is absent from `src/program.rs` (only its
use in `backtracking.rs` is in the sources); per the spec an anchored
program is one whose only valid start is position 0, i.e. whose `InitStates`
is `Anchored`. -/
def Program.is_anchored (p : Program) : Bool :=
  p.init.anchored.isSome

/-- `BacktrackingEngine::shortest_match` from `backtracking.rs`: empty
automaton means no match; an anchored program is simulated once from
position 0, state 0; otherwise candidates come from the prefix searcher. -/
def btShortestMatch (prog : Program) (pf : Pfx) (input : List Byte) :
    Option (Nat × Nat) :=
  if prog.num_states = 0 then
    none
  else if prog.is_anchored then
    (shortest_match_from prog input 0 0).map (fun x => (0, x))
  else
    btLoop prog pf input (btFuel pf input) (mkSearcher pf input)

/-! ## Threaded engine (`threaded.rs`) -/

/-- `Thread` from `threaded.rs`. -/
structure Thread where
  state : Nat
  start_idx : Nat
deriving DecidableEq, Repr

/-- `Threads` from `threaded.rs`: the live threads plus the per-state
presence table (a `Vec<u8>` of 0/1 flags). -/
structure Threads where
  threads : List Thread
  states : List Nat
deriving DecidableEq, Repr

/-- `Threads::with_capacity` from `threaded.rs`. -/
def Threads.with_capacity (n : Nat) : Threads :=
  ⟨[], List.replicate n 0⟩

/-- `Threads::add` from `threaded.rs`: insert a thread unless the state's
presence bit is already set.  (An out-of-range state panics in the source;
here the default read of `1` makes the insertion a refusal.) -/
def Threads.add (t : Threads) (state start_idx : Nat) : Threads :=
  if t.states.getD state 1 = 0 then
    ⟨t.threads ++ [⟨state, start_idx⟩], t.states.set state 1⟩
  else
    t

/-- `Threads::starts_after` from `threaded.rs`: true iff there are no
threads or the first thread started at or after `start_idx`. -/
def Threads.starts_after (t : Threads) (start_idx : Nat) : Bool :=
  t.threads.isEmpty || decide (start_idx ≤ (t.threads.headD ⟨0, 0⟩).start_idx)

/-- `ThreadedEngine::advance_thread` from `threaded.rs`, as a fold step over
one thread of the current generation.  The accumulator carries the current
generation's presence table (each stepped thread's bit is cleared), the next
generation being built, and the best acceptance seen so far (kept by
strictly smaller adjusted start). -/
def advance_thread (prog : Program) (input : List Byte) (pos : Nat)
    (acc : List Nat × Threads × Option (Nat × Nat)) (th : Thread) :
    List Nat × Threads × Option (Nat × Nat) :=
  let curStates := acc.1.set th.state 0
  let r := prog.step th.state (input.drop pos)
  let best :=
    match r.2 with
    | some bytes_ago =>
        let acc_idx := th.start_idx - bytes_ago
        match acc.2.2 with
        | none => some (acc_idx, pos)
        | some a => if acc_idx < a.1 then some (acc_idx, pos) else some a
    | none => acc.2.2
  let nxt :=
    match r.1 with
    | some ns => acc.2.1.add ns th.start_idx
    | none => acc.2.1
  (curStates, nxt, best)

/-- One loop iteration's configuration of
`ThreadedEngine::shortest_match_`. -/
structure TMCfg where
  pos : Nat
  acc : Option (Nat × Nat)
  cur : Threads
  next : Threads
  search : SearchState
deriving DecidableEq, Repr

/-- The inner `for` loop of `ThreadedEngine::shortest_match_`: advance every
thread of the current generation, accumulating the presence-table clears,
the next generation and the best acceptance. -/
def tmAdvanced (prog : Program) (input : List Byte) (c : TMCfg) :
    List Nat × Threads × Option (Nat × Nat) :=
  c.cur.threads.foldl (advance_thread prog input c.pos) (c.cur.states, c.next, c.acc)

/-- Outcome of one iteration of the threaded engine's main loop. -/
inductive TMOut where
  | done (r : Option (Nat × Nat))
  | cont (c : TMCfg)
deriving DecidableEq, Repr

/-- The end-of-input scan of `ThreadedEngine::shortest_match_`: the first
surviving thread accepting at end of input, with the lookback applied to the
input length. -/
def eoiScan (prog : Program) (input : List Byte) : List Thread → Option (Nat × Nat)
  | [] => none
  | th :: rest =>
      match prog.check_eoi th.state with
      | some b => some (th.start_idx, input.length - b)
      | none => eoiScan prog input rest

/-- One iteration of the `while pos < s.len()` loop of
`ThreadedEngine::shortest_match_` (or the end-of-input scan when the input is
exhausted): advance all threads, swap the generations (the new `next` keeps
the cleared presence table), stop early if the best acceptance starts at or
before every surviving thread, otherwise advance `pos`, reseeding from the
prefix searcher if no thread survived and always seeding a fresh thread at
the new position. -/
def tmStep (prog : Program) (pf : Pfx) (input : List Byte) (c : TMCfg) : TMOut :=
  if c.pos < input.length then
    let folded := tmAdvanced prog input c
    let cur' : Threads := folded.2.1
    let next' : Threads := ⟨[], folded.1⟩
    let acc' := folded.2.2
    if acc'.isSome && cur'.starts_after (acc'.getD (0, 0)).1 then
      .done acc'
    else
      let pos' := c.pos + 1
      if cur'.threads.isEmpty then
        match searcherSearch pf input (searcherSkipTo pf input pos' c.search) with
        | some rs =>
            .cont ⟨rs.1.start_pos, acc', cur'.add 0 rs.1.start_pos, next', rs.2⟩
        | none => .done none
      else
        .cont ⟨pos', acc', cur'.add 0 pos', next', c.search⟩
  else
    .done (eoiScan prog input c.cur.threads)

/-- Run the threaded engine's main loop with fuel; `none` means the fuel ran
out before the loop returned. -/
def tmRun (prog : Program) (pf : Pfx) (input : List Byte) :
    Nat → TMCfg → Option (Option (Nat × Nat))
  | 0, _ => none
  | fuel + 1, c =>
      match tmStep prog pf input c with
      | .done r => some r
      | .cont c' => tmRun prog pf input fuel c'

/-- Iterate `tmStep` a given number of times, returning the reached
configuration (or `none` if the loop returned before then).  Used to state
invariants over every configuration the loop reaches. -/
def tmReach (prog : Program) (pf : Pfx) (input : List Byte) :
    Nat → TMCfg → Option TMCfg
  | 0, c => some c
  | n + 1, c =>
      match tmStep prog pf input c with
      | .done _ => none
      | .cont c' => tmReach prog pf input n c'

/-- The initial configuration of `ThreadedEngine::shortest_match_`: ask the
prefix searcher for the first candidate (no candidate means an immediate
no-match), clear the scratch generations, and push — directly, without
touching the presence table — a single thread `{state: 0, start_idx: pos}`
into the current generation. -/
def tmInitCfg (prog : Program) (pf : Pfx) (input : List Byte) : Option TMCfg :=
  match searcherSearch pf input (mkSearcher pf input) with
  | none => none
  | some rs =>
      some ⟨rs.1.start_pos, none,
        ⟨[⟨0, rs.1.start_pos⟩], List.replicate prog.num_states 0⟩,
        ⟨[], List.replicate prog.num_states 0⟩, rs.2⟩

/-- `ThreadedEngine::shortest_match_` from `threaded.rs` (with fuel for the
main loop).  `some r` is the loop's return value; `none` means the fuel ran
out. -/
def tmMatchAux (prog : Program) (pf : Pfx) (input : List Byte) (fuel : Nat) :
    Option (Option (Nat × Nat)) :=
  match tmInitCfg prog pf input with
  | none => some none
  | some c => tmRun prog pf input fuel c

/-- `ThreadedEngine::shortest_match` from `threaded.rs`: empty automaton
means no match; otherwise run the main loop and, if it found nothing, fall
back to `check_empty_match_at_end`. -/
def tmShortestMatch (prog : Program) (pf : Pfx) (input : List Byte)
    (fuel : Nat) : Option (Nat × Nat) :=
  if prog.num_states = 0 then
    none
  else
    match tmMatchAux prog pf input fuel with
    | some (some r) => some r
    | some none => prog.check_empty_match_at_end input
    | none => none

/-! ## The threaded engine without early termination

The counterfactual needed to state the "the current best is final" part of
the early-termination property: the same loop as `tmStep`, with the
early-exit conditional removed, i.e. the simulation always continues to
completion. -/

/-- `tmStep` with the early-exit conditional removed. -/
def tmStepNoEarly (prog : Program) (pf : Pfx) (input : List Byte)
    (c : TMCfg) : TMOut :=
  if c.pos < input.length then
    let folded := tmAdvanced prog input c
    let cur' : Threads := folded.2.1
    let next' : Threads := ⟨[], folded.1⟩
    let acc' := folded.2.2
    let pos' := c.pos + 1
    if cur'.threads.isEmpty then
      match searcherSearch pf input (searcherSkipTo pf input pos' c.search) with
      | some rs =>
          .cont ⟨rs.1.start_pos, acc', cur'.add 0 rs.1.start_pos, next', rs.2⟩
      | none => .done none
    else
      .cont ⟨pos', acc', cur'.add 0 pos', next', c.search⟩
  else
    .done (eoiScan prog input c.cur.threads)

/-- `tmRun` over `tmStepNoEarly`. -/
def tmRunNoEarly (prog : Program) (pf : Pfx) (input : List Byte) :
    Nat → TMCfg → Option (Option (Nat × Nat))
  | 0, _ => none
  | fuel + 1, c =>
      match tmStepNoEarly prog pf input c with
      | .done r => some r
      | .cont c' => tmRunNoEarly prog pf input fuel c'

/-- `tmShortestMatch` over the loop without early termination: what the
engine would report had it continued the simulation to completion. -/
def tmShortestMatchNoEarly (prog : Program) (pf : Pfx) (input : List Byte)
    (fuel : Nat) : Option (Nat × Nat) :=
  if prog.num_states = 0 then
    none
  else
    match
      (match tmInitCfg prog pf input with
       | none => some none
       | some c => tmRunNoEarly prog pf input fuel c) with
    | some (some r) => some r
    | some none => prog.check_empty_match_at_end input
    | none => none

/-! ## Spec-side match semantics

For the differential claim we need an engine-independent notion of the
matches of a program on an input.  Modelled from the spec: a match `(s, e)`
is a span of the text such that the program may start at `s` (per
`InitStates`), and the deterministic run from state 0 at `s` reports an
acceptance whose adjusted end is `e` — either while stepping (end =
scan position minus `bytes_ago`, saturating) or at end of input
(end = text length minus `bytes_ago`, saturating). -/

/-- All adjusted accept positions along the run from `(pos, state)`,
with `gas` bytes of input remaining. -/
def specMatchEnds (prog : Program) (input : List Byte) :
    Nat → Nat → Nat → List Nat
  | 0, _, state =>
      match prog.check_eoi state with
      | some b => [input.length - b]
      | none => []
  | gas + 1, pos, state =>
      let r := prog.step state (input.drop pos)
      let here :=
        match r.2 with
        | some b => [pos - b]
        | none => []
      here ++
        (match r.1 with
         | some ns => specMatchEnds prog input gas (pos + 1) ns
         | none => [])

/-- Modelled from the spec: `(s, e)` is a match of the program on the input.
The span lies within the text, the program may start at `s`, and the run
from state 0 at `s` reports adjusted end `e`. -/
def specHasMatch (prog : Program) (input : List Byte) (s e : Nat) : Bool :=
  decide (s ≤ input.length) && decide (e ≤ input.length) &&
    (prog.init.state_at_pos input s).isSome &&
    (specMatchEnds prog input (input.length - s) s 0).contains e

/-- The program reports no lookback: every accept datum produced by `step`
is zero, and every `accept_at_eoi` entry is the sentinel or zero. -/
def ZeroLookback (prog : Program) : Prop :=
  (∀ state input b, (prog.step state input).2 = some b → b = 0) ∧
    (∀ x ∈ prog.accept_at_eoi, x = USIZE_MAX ∨ x = 0)

/-! ## Concrete programs used as test vectors -/

/-- One 256-entry row of a transition table: listed byte-to-state pairs,
`u32::MAX` everywhere else. -/
def mkRow (m : List (Nat × Nat)) : List Nat :=
  (List.range 256).map (fun b =>
    match m.lookup b with
    | some v => v
    | none => U32_MAX)

/-- The input `"baa"`. -/
def wordBaa : List Byte := [98, 97, 97]

/-- The input `"aa"`. -/
def wordAa : List Byte := [97, 97]

/-- The input `"ba"`. -/
def wordBa : List Byte := [98, 97]

/-- The input `"a"`. -/
def wordA : List Byte := [97]

/-- The input `"aaa"`. -/
def wordAaa : List Byte := [97, 97, 97]

/-- The input `"xbaa"`. -/
def wordXbaa : List Byte := [120, 98, 97, 97]

/-- A five-state table program whose unique match on `"baa"` is `(1, 2)`:
state 0 goes to 1 on `b` and to 3 on `a`; states 1, 2 chain on `a` to 2, 4;
stepping from state 3 accepts with `bytes_ago = 0` and dies; no state
accepts at end of input. -/
def exProgA : Program :=
  ⟨.Constant 0, List.replicate 5 USIZE_MAX,
    TableInsts.toInstructions
      ⟨mkRow [(98, 1), (97, 3)] ++ mkRow [(97, 2)] ++ mkRow [(97, 4)] ++
        mkRow [] ++ mkRow [],
       [USIZE_MAX, USIZE_MAX, USIZE_MAX, 0, USIZE_MAX]⟩⟩

/-- A two-state table program with lookback 2: state 0 goes to 1 on `a`;
stepping from state 1 accepts with `bytes_ago = 2`. -/
def exProgB : Program :=
  ⟨.Constant 0, [USIZE_MAX, USIZE_MAX],
    TableInsts.toInstructions
      ⟨mkRow [(97, 1)] ++ mkRow [], [USIZE_MAX, 2]⟩⟩

/-- A two-state table program: state 0 goes to 1 on `a`; stepping from
state 1 accepts with `bytes_ago = 0` and dies (no outgoing transition). -/
def exProgC : Program :=
  ⟨.Constant 0, [USIZE_MAX, USIZE_MAX],
    TableInsts.toInstructions
      ⟨mkRow [(97, 1)] ++ mkRow [], [USIZE_MAX, 0]⟩⟩

/-- An anchored two-state table program: state 0 goes to 1 on `a`; state 1
accepts at end of input with `bytes_ago = 0`; no in-stepping accepts. -/
def exProgD : Program :=
  ⟨.Anchored 0, [USIZE_MAX, 0],
    TableInsts.toInstructions
      ⟨mkRow [(97, 1)] ++ mkRow [], [USIZE_MAX, USIZE_MAX]⟩⟩

/-- A program with no states at all. -/
def exProgEmptyStates : Program :=
  ⟨.Constant 0, [], TableInsts.toInstructions ⟨[], []⟩⟩

/-- The Aho–Corasick prefix over the literals `"baa"`, `"aa"` with resume
states 0, 1. -/
def exAcPfx : Pfx := .Ac [[98, 97, 97], [97, 97]] [0, 1]

/-! ## Invariants used in the theorems -/

/-- Every set presence bit belongs to a live thread of the collection. -/
def BitSound (t : Threads) : Prop :=
  ∀ s, t.states.getD s 0 ≠ 0 → s ∈ t.threads.map Thread.state

/-- The presence bits are exactly the states of the live threads. -/
def BitExact (t : Threads) : Prop :=
  ∀ s, t.states.getD s 0 ≠ 0 ↔ s ∈ t.threads.map Thread.state

/-- The per-generation uniqueness invariant: at most one thread per state. -/
def StatesNodup (t : Threads) : Prop :=
  (t.threads.map Thread.state).Nodup

/-- The thread list is sorted by non-decreasing start offset. -/
def StartsSorted (t : Threads) : Prop :=
  List.Sorted (· ≤ ·) (t.threads.map Thread.start_idx)

/-- Every thread of the collection started at or before `p`. -/
def StartsLe (t : Threads) (p : Nat) : Prop :=
  ∀ th ∈ t.threads, th.start_idx ≤ p

/-- The pending overlapping matches of a searcher state are well-formed
spans of the input. -/
def SearcherWF (input : List Byte) (st : SearchState) : Prop :=
  ∀ m ∈ st.acIter, m.1 ≤ m.2.1 ∧ m.2.1 ≤ input.length

/-- The invariant of the threaded engine's main loop used for the
uniqueness claim: the current generation is duplicate-free with sound
presence bits, and the next generation is empty with a clear presence
table. -/
def DedupInv (c : TMCfg) : Prop :=
  BitSound c.cur ∧ StatesNodup c.cur ∧ c.next.threads = [] ∧
    (∀ s, c.next.states.getD s 0 = 0)

/-- The invariant of the threaded engine's main loop used for the
sortedness claim. -/
def SortedInv (c : TMCfg) : Prop :=
  StartsSorted c.cur ∧ StartsLe c.cur c.pos ∧ c.next.threads = []

/-- The invariant of the threaded engine's main loop used for the bounds
claim. -/
def BoundsInv (input : List Byte) (c : TMCfg) : Prop :=
  c.pos ≤ input.length ∧ StartsLe c.cur c.pos ∧ c.next.threads = [] ∧
    (∀ a, c.acc = some a → a.1 ≤ a.2 ∧ a.2 ≤ input.length) ∧
    SearcherWF input c.search

/-! # Theorems -/

/-- Once the fuelled threaded loop returns, more fuel does not change the
result. -/
theorem tmRun_extra {prog : Program} {pf : Pfx} {input : List Byte} :
    ∀ (n : Nat) (c : TMCfg) (r : Option (Nat × Nat)),
      tmRun prog pf input n c = some r →
      ∀ m, tmRun prog pf input (n + m) c = some r := by
  intro n
  induction n with
  | zero =>
      intro c r h
      rw [tmRun] at h
      cases h
  | succ n ih =>
      intro c r h m
      rw [tmRun] at h
      have : n + 1 + m = (n + m) + 1 := by omega
      rw [this, tmRun]
      cases hstep : tmStep prog pf input c with
      | done r0 =>
          rw [hstep] at h
          exact h
      | cont c'' =>
          rw [hstep] at h
          exact ih c'' r h m

/-- Once the fuelled threaded engine returns, more fuel does not change the
result. -/
theorem tmMatchAux_extra {prog : Program} {pf : Pfx} {input : List Byte}
    {n : Nat} {r : Option (Nat × Nat)}
    (h : tmMatchAux prog pf input n = some r) (m : Nat) :
    tmMatchAux prog pf input (n + m) = some r := by
  rw [tmMatchAux] at h
  rw [tmMatchAux]
  cases hinit : tmInitCfg prog pf input with
  | none =>
      rw [hinit] at h
      exact h
  | some c0 =>
      rw [hinit] at h
      exact tmRun_extra n c0 r h m

/-- C1.  The two engines do *not* agree on `shortest_match` even when the
program has a unique leftmost match: on the three-byte input `"baa"`, the
five-state program `exProgA` has exactly one match, the span `(1, 2)`; the
backtracking engine returns it, but the threaded engine returns `none` for
every sufficient fuel (its main loop records the acceptance in `acc`, yet
the end-of-input path scans only for `check_eoi` acceptors and drops
`acc`). -/
theorem c1_engines_disagree_on_unique_leftmost_match :
    btShortestMatch exProgA .Empty wordBaa = some (1, 2) ∧
    (∀ extra, tmShortestMatch exProgA .Empty wordBaa (10 + extra) = none) ∧
    (∀ s e, specHasMatch exProgA wordBaa s e = true ↔ s = 1 ∧ e = 2) := by
  refine ⟨by decide, ?_, fun s e => ⟨fun h => ?_, ?_⟩⟩
  · intro extra
    have h10 : tmMatchAux exProgA .Empty wordBaa 10 = some none := by decide
    rw [tmShortestMatch,
      if_neg (by decide : ¬exProgA.num_states = 0),
      tmMatchAux_extra h10 extra]
    decide
  · have h' := h
    simp only [specHasMatch, Bool.and_eq_true, decide_eq_true_eq, wordBaa,
      List.length_cons, List.length_nil] at h'
    have hs : s ≤ 3 := h'.1.1.1
    have he : e ≤ 3 := h'.1.1.2
    interval_cases s <;> interval_cases e <;>
      first
      | exact ⟨rfl, rfl⟩
      | exact absurd h (by decide)
  · rintro ⟨rfl, rfl⟩
    decide

/-- C2 (counterexample).  The returned offsets do not always satisfy
`start <= end`: on `"baa"`, the lookback-2 program `exProgB` makes the
backtracking engine return `(1, 0)`. -/
theorem c2_start_can_exceed_end :
    btShortestMatch exProgB .Empty wordBaa = some (1, 0) ∧ ¬(1 ≤ 0) := by
  exact ⟨by decide, by decide⟩

/-- C3 (counterexample).  The early-exit result is *not* always the result
the engine would have reported had it continued the simulation to
completion.  On `"aaa"` with `exProgC`, after the swap at position 1 the
accepted result `(0, 1)` exists and the only surviving thread started at 1,
strictly after 0 — the engine stops and returns `(0, 1)` — yet the loop
without early termination returns `none` for the whole match. -/
theorem c3_early_exit_differs_from_full_run :
    (tmAdvanced exProgC wordAaa
        ⟨1, none, ⟨[⟨1, 0⟩, ⟨0, 1⟩], [1, 1]⟩, ⟨[], [0, 0]⟩, ⟨1, []⟩⟩).2.2
        = some (0, 1) ∧
    (∀ th ∈ (tmAdvanced exProgC wordAaa
        ⟨1, none, ⟨[⟨1, 0⟩, ⟨0, 1⟩], [1, 1]⟩, ⟨[], [0, 0]⟩, ⟨1, []⟩⟩).2.1.threads,
      0 < th.start_idx) ∧
    tmInitCfg exProgC .Empty wordAaa
      = some ⟨0, none, ⟨[⟨0, 0⟩], [0, 0]⟩, ⟨[], [0, 0]⟩, ⟨1, []⟩⟩ ∧
    tmReach exProgC .Empty wordAaa 1 ⟨0, none, ⟨[⟨0, 0⟩], [0, 0]⟩, ⟨[], [0, 0]⟩, ⟨1, []⟩⟩
      = some ⟨1, none, ⟨[⟨1, 0⟩, ⟨0, 1⟩], [1, 1]⟩, ⟨[], [0, 0]⟩, ⟨1, []⟩⟩ ∧
    tmShortestMatch exProgC .Empty wordAaa 10 = some (0, 1) ∧
    tmShortestMatchNoEarly exProgC .Empty wordAaa 10 = none := by
  refine ⟨by decide, by decide, by decide, by decide, by decide, by decide⟩

/-- C4 (counterexample).  The threaded engine does not respect anchoring:
`exProgD` is anchored, yet on `"ba"` the threaded engine reports the match
`(1, 2)`, whose start is not 0 (the backtracking engine reports no match). -/
theorem c4_threaded_reports_nonzero_start_when_anchored :
    exProgD.init = .Anchored 0 ∧
    tmShortestMatch exProgD .Empty wordBa 10 = some (1, 2) ∧
    btShortestMatch exProgD .Empty wordBa = none ∧ (1 : Nat) ≠ 0 := by
  exact ⟨by decide, by decide, by decide, by decide⟩

/-- C6 (counterexample).  For the `Lit` kind the candidate span does not
cover the whole literal: the first result for literal `"aa"` on `"aaa"` has
`end_pos = 0`, not `start_pos + 2`. -/
theorem c6_lit_candidate_is_zero_width :
    searcherSearch (.Lit [97, 97]) wordAaa (mkSearcher (.Lit [97, 97]) wordAaa)
      = some (⟨0, 0, 0⟩, ⟨1, []⟩) ∧ (0 : Nat) ≠ 0 + 2 := by
  exact ⟨by decide, by decide⟩

/-- C7.  `AcSearcher::skip_to` breaks the absolute-offset contract: over the
literals `{"baa", "aa"}` on `"xbaa"`, after `skip_to(1)` the next `search`
returns `start_pos = 0` — the coordinates of the occurrence at absolute
offset 1, reported relative to the sliced suffix — which is less than the
skipped-to position 1. -/
theorem c7_ac_skip_to_reports_relative_offsets :
    searcherSearch exAcPfx wordXbaa
        (searcherSkipTo exAcPfx wordXbaa 1 (mkSearcher exAcPfx wordXbaa))
      = some (⟨0, 3, 0⟩, ⟨1, [(1, 3, 1)]⟩) ∧ (0 : Nat) < 1 := by
  exact ⟨by decide, by decide⟩

/-- C8.  For both engines, a program with `num_states() == 0` yields an
ordinary no-match, for every prefix, input and fuel. -/
theorem c8_empty_automaton_no_match (prog : Program) (pf : Pfx)
    (input : List Byte) (fuel : Nat) (h : prog.num_states = 0) :
    btShortestMatch prog pf input = none ∧
      tmShortestMatch prog pf input fuel = none := by
  constructor <;> simp [btShortestMatch, tmShortestMatch, h]

/-- Witness for C8 at the concrete zero-state program. -/
theorem c8_empty_automaton_no_match_witness :
    btShortestMatch exProgEmptyStates .Empty wordBa = none ∧
      tmShortestMatch exProgEmptyStates .Empty wordBa 5 = none :=
  c8_empty_automaton_no_match exProgEmptyStates .Empty wordBa 5 (by decide)

/-- C4 (amended).  For an anchored program the backtracking engine never
consults the prefix searcher — its result is the same for any two prefixes —
and every match it reports starts at 0. -/
theorem c4_backtracking_anchored_ignores_searcher (prog : Program)
    (pf1 pf2 : Pfx) (input : List Byte) (h : prog.is_anchored = true) :
    btShortestMatch prog pf1 input = btShortestMatch prog pf2 input ∧
      (∀ s e, btShortestMatch prog pf1 input = some (s, e) → s = 0) := by
  constructor
  · simp [btShortestMatch, h]
  · intro s e hse
    by_cases h0 : prog.num_states = 0
    · simp [btShortestMatch, h0] at hse
    · rw [btShortestMatch, if_neg h0, if_pos (by simp [h])] at hse
      obtain ⟨x, -, hx⟩ := Option.map_eq_some'.mp hse
      exact (Prod.mk.injEq _ _ _ _ ▸ hx).1.symm

/-- Witness for the amended C4 at the anchored program `exProgD` on `"a"`. -/
theorem c4_backtracking_anchored_ignores_searcher_witness :
    btShortestMatch exProgD .Empty wordA = btShortestMatch exProgD (.Byte 97) wordA ∧
      (∀ s e, btShortestMatch exProgD .Empty wordA = some (s, e) → s = 0) :=
  c4_backtracking_anchored_ignores_searcher exProgD .Empty (.Byte 97) wordA (by decide)

/-- C3 (amended).  Whenever, after advancing all threads and swapping
generations, an accepted result `a` exists and every thread surviving into
the new current generation started strictly after `a`'s start offset, the
engine stops at this iteration and returns `a`. -/
theorem c3_early_exit_returns_current_best (prog : Program) (pf : Pfx)
    (input : List Byte) (c : TMCfg) (fuel : Nat) (a : Nat × Nat)
    (hpos : c.pos < input.length)
    (hacc : (tmAdvanced prog input c).2.2 = some a)
    (hsurv : ∀ th ∈ (tmAdvanced prog input c).2.1.threads, a.1 < th.start_idx) :
    tmRun prog pf input (fuel + 1) c = some (some a) := by
  have hstep : tmStep prog pf input c = .done (some a) := by
    rw [tmStep, if_pos hpos]
    simp only [hacc]
    have hsa : Threads.starts_after (tmAdvanced prog input c).2.1 a.1 = true := by
      rw [Threads.starts_after]
      cases hth : (tmAdvanced prog input c).2.1.threads with
      | nil => simp
      | cons th rest =>
          have hlt := hsurv th (by rw [hth]; exact List.mem_cons_self th rest)
          simp [Nat.le_of_lt hlt]
    simp [hsa]
  rw [tmRun, hstep]

/-- Witness for the amended C3 at the configuration of `exProgC` on `"aaa"`
reached after one iteration. -/
theorem c3_early_exit_returns_current_best_witness :
    tmRun exProgC .Empty wordAaa 1
        ⟨1, none, ⟨[⟨1, 0⟩, ⟨0, 1⟩], [1, 1]⟩, ⟨[], [0, 0]⟩, ⟨1, []⟩⟩
      = some (some (0, 1)) :=
  c3_early_exit_returns_current_best exProgC .Empty wordAaa
    ⟨1, none, ⟨[⟨1, 0⟩, ⟨0, 1⟩], [1, 1]⟩, ⟨[], [0, 0]⟩, ⟨1, []⟩⟩ 0 (0, 1)
    (by decide) (by decide) (by decide)

/-- C6 (amended).  Every result of the `Lit` searcher is a zero-width
candidate (`end_pos = start_pos`, resume state 0), and the searcher resumes
strictly after each match's start, so overlapping occurrences are found:
literal `"aa"` on `"aaa"` reports starts 0 and 1 and then stops. -/
theorem c6_lit_zero_width_and_overlap :
    (∀ l input st res st',
        searcherSearch (.Lit l) input st = some (res, st') →
        res.end_pos = res.start_pos ∧ res.end_state = 0 ∧
          st'.pos = res.start_pos + 1) ∧
    searcherSearch (.Lit [97, 97]) wordAaa (mkSearcher (.Lit [97, 97]) wordAaa)
      = some (⟨0, 0, 0⟩, ⟨1, []⟩) ∧
    searcherSearch (.Lit [97, 97]) wordAaa ⟨1, []⟩ = some (⟨1, 1, 0⟩, ⟨2, []⟩) ∧
    searcherSearch (.Lit [97, 97]) wordAaa ⟨2, []⟩ = none := by
  refine ⟨?_, by decide, by decide, by decide⟩
  intro l input st res st' h
  simp only [searcherSearch] at h
  by_cases hp : st.pos > input.length
  · rw [if_pos hp] at h; cases h
  · rw [if_neg hp] at h
    cases hs : pfxSkip (.Lit l) (input.drop st.pos) with
    | none => rw [hs] at h; cases h
    | some se =>
        rw [hs] at h
        obtain ⟨x, -, hxse⟩ := Option.map_eq_some'.mp (hs ▸ rfl :
          (searchIn l (input.drop st.pos)).map (fun x => (x, x)) = some se)
        cases h
        cases hxse
        exact ⟨rfl, rfl, rfl⟩

/-- Witness for the amended C6 at literal `"aa"` on `"aaa"`. -/
theorem c6_lit_zero_width_and_overlap_witness :
    (0 : Nat) = 0 ∧ (0 : Nat) = 0 ∧ (1 : Nat) = 0 + 1 :=
  c6_lit_zero_width_and_overlap.1 [97, 97] wordAaa
    (mkSearcher (.Lit [97, 97]) wordAaa) ⟨0, 0, 0⟩ ⟨1, []⟩ (by decide)

/-- `List.min?` on `Nat` is the least member. -/
theorem nat_min?_eq_some_iff {xs : List Nat} {a : Nat} :
    xs.min? = some a ↔ a ∈ xs ∧ ∀ b ∈ xs, a ≤ b :=
  List.min?_eq_some_iff (fun a => le_refl a) (fun a b => min_choice a b)
    (fun _ _ _ => le_min_iff)

/-- Folding `set _ true` over a 256-entry boolean table sets exactly the
first bytes of the folded literals. -/
theorem foldl_set_true_getD (ps : List (List (Fin 256) × Nat))
    (bs : List Bool) (hlen : bs.length = 256) (b : Fin 256) :
    ((ps.foldl (fun bs s => bs.set (s.1.headD 0).val true) bs).getD b.val false
        = true) ↔
      (bs.getD b.val false = true ∨ ∃ p ∈ ps, p.1.headD 0 = b) := by
  induction ps generalizing bs with
  | nil => simp
  | cons p rest ih =>
      rw [List.foldl_cons, ih (bs.set (p.1.headD 0).val true) (by simp [hlen])]
      have hb : b.val < bs.length := by rw [hlen]; exact b.isLt
      constructor
      · rintro (hset | ⟨q, hq, hqb⟩)
        · by_cases hpb : (p.1.headD 0).val = b.val
          · exact Or.inr ⟨p, List.mem_cons_self p rest, Fin.val_injective hpb⟩
          · rw [List.getD_eq_getElem?_getD, List.getElem?_set_ne hpb,
              ← List.getD_eq_getElem?_getD] at hset
            exact Or.inl hset
        · exact Or.inr ⟨q, List.mem_cons_of_mem p hq, hqb⟩
      · rintro (hbs | ⟨q, hq, hqb⟩)
        · by_cases hpb : (p.1.headD 0).val = b.val
          · refine Or.inl ?_
            rw [List.getD_eq_getElem?_getD, ← hpb,
              List.getElem?_set_self (by rw [hpb]; exact hb)]
            rfl
          · refine Or.inl ?_
            rw [List.getD_eq_getElem?_getD, List.getElem?_set_ne hpb,
              ← List.getD_eq_getElem?_getD]
            exact hbs
        · rcases List.mem_cons.mp hq with rfl | hq'
          · refine Or.inl ?_
            rw [List.getD_eq_getElem?_getD, hqb,
              List.getElem?_set_self hb]
            rfl
          · exact Or.inr ⟨q, hq', hqb⟩

/-- C5.  `Prefix::from_strings`, after discarding empty literals, selects:
`Empty` for zero remaining literals; `Byte` for exactly one literal of
length 1; `Lit` for exactly one literal of length at least 2; `ByteSet`
over the union of the first bytes of all literals when there are at least
two literals and at least one has length 1; otherwise the multi-pattern
`Ac` kind preserving each literal's resume state. -/
theorem c5_from_strings_classification (l : List (List (Fin 256) × Nat)) :
    (l.filter (fun x => !x.1.isEmpty) = [] → fromStrings l = .Empty) ∧
    (∀ s n, l.filter (fun x => !x.1.isEmpty) = [(s, n)] → s.length = 1 →
        fromStrings l = .Byte (s.headD 0)) ∧
    (∀ s n, l.filter (fun x => !x.1.isEmpty) = [(s, n)] → 2 ≤ s.length →
        fromStrings l = .Lit s) ∧
    (2 ≤ (l.filter (fun x => !x.1.isEmpty)).length →
      (∃ p ∈ l.filter (fun x => !x.1.isEmpty), p.1.length = 1) →
        ∃ bs, fromStrings l = .ByteSet bs ∧
          ∀ b : Fin 256, (bs.getD b.val false = true ↔
            ∃ p ∈ l.filter (fun x => !x.1.isEmpty), p.1.headD 0 = b)) ∧
    (2 ≤ (l.filter (fun x => !x.1.isEmpty)).length →
      (∀ p ∈ l.filter (fun x => !x.1.isEmpty), 2 ≤ p.1.length) →
        fromStrings l =
          .Ac ((l.filter (fun x => !x.1.isEmpty)).map (fun x => x.1))
            ((l.filter (fun x => !x.1.isEmpty)).map (fun x => x.2))) := by
  have hpos : ∀ p ∈ l.filter (fun x => !x.1.isEmpty), 1 ≤ p.1.length := by
    intro p hp
    have := (List.mem_filter.mp hp).2
    simp only [Bool.not_eq_true'] at this
    cases hl : p.1 with
    | nil => rw [hl] at this; simp at this
    | cons a as => simp [hl]
  refine ⟨?_, ?_, ?_, ?_, ?_⟩
  · intro h
    simp [fromStrings, h]
  · intro s n h h1
    simp [fromStrings, h, h1]
  · intro s n h h2
    have : ¬s.length = 1 := by omega
    simp [fromStrings, h, this]
  · intro h2 hex
    have hne : (l.filter (fun x => !x.1.isEmpty)).isEmpty = false := by
      cases hl : l.filter (fun x => !x.1.isEmpty) with
      | nil => rw [hl] at h2; simp at h2
      | cons a as => simp
    have hlen1 : ¬(l.filter (fun x => !x.1.isEmpty)).length = 1 := by omega
    have hmin : ((l.filter (fun x => !x.1.isEmpty)).map
        (fun x => x.1.length)).min? = some 1 := by
      rw [nat_min?_eq_some_iff]
      obtain ⟨p, hp, hp1⟩ := hex
      constructor
      · exact List.mem_map.mpr ⟨p, hp, hp1⟩
      · intro b hb
        obtain ⟨q, hq, hqb⟩ := List.mem_map.mp hb
        exact hqb ▸ hpos q hq
    refine ⟨(l.filter (fun x => !x.1.isEmpty)).foldl
        (fun bs s => bs.set (s.1.headD 0).val true)
        (List.replicate 256 false), ?_, ?_⟩
    · rw [fromStrings]
      simp only [hne, Bool.false_eq_true, if_false, hlen1, hmin, if_true]
    · intro b
      rw [foldl_set_true_getD _ _ (by simp)]
      have hrep : (List.replicate 256 false).getD b.val false = false := by
        rw [List.getD_eq_getElem?_getD, List.getElem?_replicate]
        split <;> rfl
      rw [hrep]
      exact ⟨fun h => h.resolve_left (by simp), Or.inr⟩
  · intro h2 hall
    have hne : (l.filter (fun x => !x.1.isEmpty)).isEmpty = false := by
      cases hl : l.filter (fun x => !x.1.isEmpty) with
      | nil => rw [hl] at h2; simp at h2
      | cons a as => simp
    have hlen1 : ¬(l.filter (fun x => !x.1.isEmpty)).length = 1 := by omega
    have hmin : ¬((l.filter (fun x => !x.1.isEmpty)).map
        (fun x => x.1.length)).min? = some 1 := by
      intro hm
      obtain ⟨hmem, -⟩ := nat_min?_eq_some_iff.mp hm
      obtain ⟨q, hq, hq1⟩ := List.mem_map.mp hmem
      have := hall q hq
      omega
    rw [fromStrings]
    simp only [hne, Bool.false_eq_true, if_false, hlen1, hmin, if_true]

/-- Witness for C5: two length-2 literals produce the `Ac` kind with the
resume states preserved. -/
theorem c5_from_strings_classification_witness :
    fromStrings [([97, 98], 5), ([98, 97], 7)] = .Ac [[97, 98], [98, 97]] [5, 7] :=
  (c5_from_strings_classification [([97, 98], 5), ([98, 97], 7)]).2.2.2.2
    (by decide) (by decide)

/-- `getD` past the end of the list yields the default. -/
theorem getD_out_of_range {l : List Nat} {i : Nat} (h : l.length ≤ i) (d : Nat) :
    l.getD i d = d := by
  rw [List.getD_eq_getElem?_getD, List.getElem?_eq_none h]
  rfl

/-- `getD` within range ignores the default. -/
theorem getD_in_range_indep {l : List Nat} {i : Nat} (h : i < l.length)
    (d1 d2 : Nat) : l.getD i d1 = l.getD i d2 := by
  rw [List.getD_eq_getElem?_getD, List.getD_eq_getElem?_getD,
    List.getElem?_eq_getElem h]
  rfl

/-- `getD` on a table of zeros is zero. -/
theorem getD_replicate_zero (n s : Nat) :
    (List.replicate n (0 : Nat)).getD s 0 = 0 := by
  rw [List.getD_eq_getElem?_getD, List.getElem?_replicate]
  split <;> rfl

/-- `Threads::add` preserves exact presence bits and per-state uniqueness. -/
theorem add_bitexact {t : Threads} (hex : BitExact t) (hnd : StatesNodup t)
    (st si : Nat) : BitExact (t.add st si) ∧ StatesNodup (t.add st si) := by
  rw [Threads.add]
  by_cases hbit : t.states.getD st 1 = 0
  · rw [if_pos hbit]
    have hlt : st < t.states.length := by
      by_contra hge
      push_neg at hge
      rw [getD_out_of_range hge] at hbit
      exact one_ne_zero hbit
    have hst0 : t.states.getD st 0 = 0 := (getD_in_range_indep hlt 0 1).trans hbit
    have hnotin : st ∉ t.threads.map Thread.state := fun hmem =>
      ((hex st).mpr hmem) hst0
    constructor
    · intro s
      by_cases hs : s = st
      · subst hs
        constructor
        · intro _
          simp
        · intro _
          rw [List.getD_eq_getElem?_getD, List.getElem?_set_self hlt]
          simp
      · rw [List.getD_eq_getElem?_getD,
          List.getElem?_set_ne (fun h => hs h.symm),
          ← List.getD_eq_getElem?_getD, List.map_append]
        simp only [List.map_cons, List.map_nil, List.mem_append,
          List.mem_singleton]
        constructor
        · intro h
          exact Or.inl ((hex s).mp h)
        · rintro (h | h)
          · exact (hex s).mpr h
          · exact absurd h hs
    · rw [StatesNodup, List.map_append]
      simp only [List.map_cons, List.map_nil]
      rw [List.nodup_append]
      refine ⟨hnd, List.nodup_singleton st, ?_⟩
      intro a ha hb
      simp only [List.mem_singleton] at hb
      subst hb
      exact hnotin ha
  · rw [if_neg hbit]
    exact ⟨hex, hnd⟩

/-- `advance_thread` written out as an explicit tuple. -/
theorem advance_thread_eq (prog : Program) (input : List Byte) (pos : Nat)
    (cs : List Nat) (nx : Threads) (ac : Option (Nat × Nat)) (th : Thread) :
    advance_thread prog input pos (cs, nx, ac) th =
      (cs.set th.state 0,
       (match (prog.step th.state (input.drop pos)).1 with
        | some ns => nx.add ns th.start_idx
        | none => nx),
       (match (prog.step th.state (input.drop pos)).2 with
        | some b =>
            (match ac with
             | none => some (th.start_idx - b, pos)
             | some a =>
                 if th.start_idx - b < a.1 then some (th.start_idx - b, pos)
                 else some a)
        | none => ac)) := rfl

/-- Advancing a full generation clears its presence table and builds a
duplicate-free next generation with exact presence bits. -/
theorem advance_fold_dedup (prog : Program) (input : List Byte) (pos : Nat) :
    ∀ (ths : List Thread) (cs : List Nat) (nx : Threads)
      (ac : Option (Nat × Nat)),
      (∀ s, cs.getD s 0 ≠ 0 → s ∈ ths.map Thread.state) →
      BitExact nx → StatesNodup nx →
      (∀ s, (ths.foldl (advance_thread prog input pos) (cs, nx, ac)).1.getD s 0
          = 0) ∧
        BitExact (ths.foldl (advance_thread prog input pos) (cs, nx, ac)).2.1 ∧
        StatesNodup (ths.foldl (advance_thread prog input pos) (cs, nx, ac)).2.1
    := by
  intro ths
  induction ths with
  | nil =>
      intro cs nx ac hcs hex hnd
      refine ⟨?_, hex, hnd⟩
      intro s
      by_contra h
      exact absurd (hcs s h) (by simp)
  | cons th rest ih =>
      intro cs nx ac hcs hex hnd
      rw [List.foldl_cons, advance_thread_eq]
      have hcs' : ∀ s, (cs.set th.state 0).getD s 0 ≠ 0 →
          s ∈ rest.map Thread.state := by
        intro s hne
        by_cases hs : s = th.state
        · subst hs
          by_cases hlt : th.state < cs.length
          · rw [List.getD_eq_getElem?_getD, List.getElem?_set_self hlt] at hne
            simp at hne
          · push_neg at hlt
            rw [List.set_eq_of_length_le hlt, getD_out_of_range hlt] at hne
            simp at hne
        · rw [List.getD_eq_getElem?_getD,
            List.getElem?_set_ne (fun h => hs h.symm),
            ← List.getD_eq_getElem?_getD] at hne
          have hmem := hcs s hne
          simp only [List.map_cons, List.mem_cons] at hmem
          exact hmem.resolve_left hs
      cases hr1 : (prog.step th.state (input.drop pos)).1 with
      | none => exact ih _ _ _ hcs' hex hnd
      | some ns =>
          obtain ⟨hex', hnd'⟩ := add_bitexact hex hnd ns th.start_idx
          exact ih _ _ _ hcs' hex' hnd'

/-- One loop iteration preserves the deduplication invariant. -/
theorem tmStep_dedup {prog : Program} {pf : Pfx} {input : List Byte}
    {c c' : TMCfg} (hinv : DedupInv c)
    (hstep : tmStep prog pf input c = .cont c') : DedupInv c' := by
  obtain ⟨hbs, hnd, hnext, hnz⟩ := hinv
  have hnx : BitExact c.next := by
    intro s
    constructor
    · intro h
      exact absurd (hnz s) h
    · intro h
      rw [hnext] at h
      simp at h
  have hfold := advance_fold_dedup prog input c.pos c.cur.threads c.cur.states
    c.next c.acc hbs hnx (by rw [StatesNodup, hnext]; exact List.nodup_nil)
  rw [tmStep] at hstep
  by_cases hpos : c.pos < input.length
  · rw [if_pos hpos] at hstep
    dsimp only at hstep
    split at hstep
    · cases hstep
    · split at hstep
      · split at hstep
        · cases hstep
          exact ⟨fun s h => ((add_bitexact hfold.2.1 hfold.2.2 0 _).1 s).mp h,
            (add_bitexact hfold.2.1 hfold.2.2 0 _).2, rfl, hfold.1⟩
        · cases hstep
      · cases hstep
        exact ⟨fun s h => ((add_bitexact hfold.2.1 hfold.2.2 0 _).1 s).mp h,
          (add_bitexact hfold.2.1 hfold.2.2 0 _).2, rfl, hfold.1⟩
  · rw [if_neg hpos] at hstep
    cases hstep

/-- Every configuration reached by the loop satisfies the deduplication
invariant. -/
theorem tmReach_dedup {prog : Program} {pf : Pfx} {input : List Byte} :
    ∀ (n : Nat) (c c' : TMCfg), DedupInv c →
      tmReach prog pf input n c = some c' → DedupInv c' := by
  intro n
  induction n with
  | zero =>
      intro c c' hinv h
      rw [tmReach] at h
      cases h
      exact hinv
  | succ n ih =>
      intro c c' hinv h
      rw [tmReach] at h
      cases hstep : tmStep prog pf input c with
      | done r => rw [hstep] at h; cases h
      | cont c'' =>
          rw [hstep] at h
          exact ih c'' c' (tmStep_dedup hinv hstep) h

/-- The initial configuration satisfies the deduplication invariant. -/
theorem tmInit_dedup {prog : Program} {pf : Pfx} {input : List Byte}
    {c0 : TMCfg} (h : tmInitCfg prog pf input = some c0) : DedupInv c0 := by
  rw [tmInitCfg] at h
  cases hs : searcherSearch pf input (mkSearcher pf input) with
  | none => rw [hs] at h; cases h
  | some rs =>
      rw [hs] at h
      cases h
      refine ⟨?_, ?_, rfl, ?_⟩
      · intro s hne
        exact absurd (getD_replicate_zero _ s) hne
      · rw [StatesNodup]
        simp
      · intro s
        exact getD_replicate_zero _ s

/-- C9.  During every execution of the threaded engine's main loop, each
generation holds at most one thread per automaton state: `Threads::add`
refuses a thread whose presence bit is set, and every configuration
reachable from the initial seeding keeps both generations duplicate-free. -/
theorem c9_each_generation_one_thread_per_state (prog : Program) (pf : Pfx)
    (input : List Byte) (n : Nat) (c0 c : TMCfg)
    (h0 : tmInitCfg prog pf input = some c0)
    (hr : tmReach prog pf input n c0 = some c) :
    StatesNodup c.cur ∧ StatesNodup c.next ∧
      (∀ (t : Threads) (st si : Nat), t.states.getD st 1 ≠ 0 →
        t.add st si = t) := by
  have hinv := tmReach_dedup n c0 c (tmInit_dedup h0) hr
  refine ⟨hinv.2.1, ?_, ?_⟩
  · rw [StatesNodup, hinv.2.2.1]
    exact List.nodup_nil
  · intro t st si hbit
    rw [Threads.add, if_neg hbit]

/-- Witness for C9 at the configuration of `exProgC` on `"aaa"` reached
after one iteration. -/
theorem c9_each_generation_one_thread_per_state_witness :
    StatesNodup (⟨[⟨1, 0⟩, ⟨0, 1⟩], [1, 1]⟩ : Threads) ∧
    StatesNodup (⟨[], [0, 0]⟩ : Threads) ∧
      (∀ (t : Threads) (st si : Nat), t.states.getD st 1 ≠ 0 →
        t.add st si = t) :=
  c9_each_generation_one_thread_per_state exProgC .Empty wordAaa 1
    ⟨0, none, ⟨[⟨0, 0⟩], [0, 0]⟩, ⟨[], [0, 0]⟩, ⟨1, []⟩⟩
    ⟨1, none, ⟨[⟨1, 0⟩, ⟨0, 1⟩], [1, 1]⟩, ⟨[], [0, 0]⟩, ⟨1, []⟩⟩
    (by decide) (by decide)

/-- `Threads::add` either appends the new thread at the end or leaves the
collection unchanged. -/
theorem add_threads_cases (t : Threads) (st si : Nat) :
    (t.add st si).threads = t.threads ++ [⟨st, si⟩] ∨
      (t.add st si).threads = t.threads := by
  rw [Threads.add]
  split
  · exact Or.inl rfl
  · exact Or.inr rfl

/-- The start offsets of the generation built by advancing a full thread
list form a sublist of the pending start offsets followed by the advanced
threads' start offsets (dedup may drop entries, order is preserved). -/
theorem advance_fold_starts_sublist (prog : Program) (input : List Byte)
    (pos : Nat) :
    ∀ (ths : List Thread) (cs : List Nat) (nx : Threads)
      (ac : Option (Nat × Nat)),
      ((ths.foldl (advance_thread prog input pos) (cs, nx, ac)).2.1.threads.map
          Thread.start_idx).Sublist
        (nx.threads.map Thread.start_idx ++ ths.map Thread.start_idx) := by
  intro ths
  induction ths with
  | nil =>
      intro cs nx ac
      simp
  | cons th rest ih =>
      intro cs nx ac
      rw [List.foldl_cons, advance_thread_eq]
      cases hr1 : (prog.step th.state (input.drop pos)).1 with
      | none =>
          refine (ih _ _ _).trans ?_
          rw [List.map_cons]
          exact List.Sublist.append_left (List.sublist_cons_self _ _) _
      | some ns =>
          refine (ih _ _ _).trans ?_
          rcases add_threads_cases nx ns th.start_idx with hadd | hadd
          · rw [hadd, List.map_append, List.append_assoc, List.map_cons,
              List.map_cons, List.map_nil, List.singleton_append]
          · rw [hadd, List.map_cons]
            exact List.Sublist.append_left (List.sublist_cons_self _ _) _

/-- One loop iteration preserves the sortedness invariant. -/
theorem tmStep_sorted {prog : Program} {pf : Pfx} {input : List Byte}
    {c c' : TMCfg} (hinv : SortedInv c)
    (hstep : tmStep prog pf input c = .cont c') : SortedInv c' := by
  obtain ⟨hsort, hle, hnext⟩ := hinv
  have hsub := advance_fold_starts_sublist prog input c.pos c.cur.threads
    c.cur.states c.next c.acc
  rw [hnext] at hsub
  simp only [List.map_nil, List.nil_append] at hsub
  have hsort' : StartsSorted (tmAdvanced prog input c).2.1 :=
    List.Pairwise.sublist hsub hsort
  have hle' : StartsLe (tmAdvanced prog input c).2.1 c.pos := by
    intro th hth
    have hmem : th.start_idx ∈
        (tmAdvanced prog input c).2.1.threads.map Thread.start_idx :=
      List.mem_map.mpr ⟨th, hth, rfl⟩
    obtain ⟨th0, hth0, heq⟩ := List.mem_map.mp (hsub.subset hmem)
    exact heq ▸ hle th0 hth0
  rw [tmStep] at hstep
  by_cases hpos : c.pos < input.length
  · rw [if_pos hpos] at hstep
    dsimp only at hstep
    split at hstep
    · cases hstep
    · split at hstep
      · rename_i hempty
        split at hstep
        · rename_i rs hrs
          cases hstep
          have hcur : (tmAdvanced prog input c).2.1.threads = [] :=
            List.isEmpty_iff.mp hempty
          rcases add_threads_cases (tmAdvanced prog input c).2.1 0
            rs.1.start_pos with hadd | hadd
          · refine ⟨?_, ?_, rfl⟩
            · rw [StartsSorted, hadd, hcur]
              simp
            · intro th hth
              rw [hadd, hcur] at hth
              simp only [List.nil_append, List.mem_singleton] at hth
              subst hth
              exact Nat.le_refl _
          · refine ⟨?_, ?_, rfl⟩
            · rw [StartsSorted, hadd, hcur]
              simp
            · intro th hth
              rw [hadd, hcur] at hth
              simp at hth
        · cases hstep
      · cases hstep
        rcases add_threads_cases (tmAdvanced prog input c).2.1 0 (c.pos + 1)
          with hadd | hadd
        · refine ⟨?_, ?_, rfl⟩
          · rw [StartsSorted, hadd, List.map_append]
            refine List.pairwise_append.mpr ⟨hsort', by simp, ?_⟩
            intro a ha b hb
            simp only [List.map_cons, List.map_nil, List.mem_singleton] at hb
            subst hb
            obtain ⟨th0, hth0, heq⟩ := List.mem_map.mp ha
            exact heq ▸ Nat.le_succ_of_le (hle' th0 hth0)
          · intro th hth
            rw [hadd] at hth
            rcases List.mem_append.mp hth with h | h
            · exact Nat.le_succ_of_le (hle' th h)
            · simp only [List.mem_singleton] at h
              subst h
              exact Nat.le_refl _
        · refine ⟨?_, ?_, rfl⟩
          · rw [StartsSorted, hadd]
            exact hsort'
          · intro th hth
            rw [hadd] at hth
            exact Nat.le_succ_of_le (hle' th hth)
  · rw [if_neg hpos] at hstep
    cases hstep

/-- The initial configuration satisfies the sortedness invariant. -/
theorem tmInit_sorted {prog : Program} {pf : Pfx} {input : List Byte}
    {c0 : TMCfg} (h : tmInitCfg prog pf input = some c0) : SortedInv c0 := by
  rw [tmInitCfg] at h
  cases hs : searcherSearch pf input (mkSearcher pf input) with
  | none => rw [hs] at h; cases h
  | some rs =>
      rw [hs] at h
      cases h
      refine ⟨?_, ?_, rfl⟩
      · rw [StartsSorted]
        simp
      · intro th hth
        simp only [List.mem_singleton] at hth
        subst hth
        exact Nat.le_refl _

/-- Every configuration reached by the loop satisfies the sortedness
invariant. -/
theorem tmReach_sorted {prog : Program} {pf : Pfx} {input : List Byte} :
    ∀ (n : Nat) (c c' : TMCfg), SortedInv c →
      tmReach prog pf input n c = some c' → SortedInv c' := by
  intro n
  induction n with
  | zero =>
      intro c c' hinv h
      rw [tmReach] at h
      cases h
      exact hinv
  | succ n ih =>
      intro c c' hinv h
      rw [tmReach] at h
      cases hstep : tmStep prog pf input c with
      | done r => rw [hstep] at h; cases h
      | cont c'' =>
          rw [hstep] at h
          exact ih c'' c' (tmStep_sorted hinv hstep) h

/-- With a sorted thread list, `starts_after` (which inspects only the
first thread) decides whether every thread started at or after the given
offset. -/
theorem starts_after_iff (t : Threads) (hs : StartsSorted t) (k : Nat) :
    t.starts_after k = true ↔ ∀ th ∈ t.threads, k ≤ th.start_idx := by
  cases hth : t.threads with
  | nil =>
      rw [Threads.starts_after, hth]
      simp
  | cons th rest =>
      rw [Threads.starts_after, hth]
      rw [StartsSorted, hth, List.map_cons, List.sorted_cons] at hs
      simp only [List.isEmpty_cons, Bool.false_or, decide_eq_true_eq,
        List.headD_cons]
      constructor
      · intro hk th' hth'
        rcases List.mem_cons.mp hth' with rfl | h'
        · exact hk
        · exact hk.trans (hs.1 th'.start_idx (List.mem_map.mpr ⟨th', h', rfl⟩))
      · intro h
        exact h th (List.mem_cons_self th rest)

/-- With a sorted thread list, the end-of-input scan (which returns the
first accepting thread in list order) returns an accepting thread of
minimal start offset. -/
theorem eoiScan_min (prog : Program) (input : List Byte) :
    ∀ (ths : List Thread),
      List.Sorted (· ≤ ·) (ths.map Thread.start_idx) →
      ∀ r, eoiScan prog input ths = some r →
        ∃ th ∈ ths, ∃ b, prog.check_eoi th.state = some b ∧
          r = (th.start_idx, input.length - b) ∧
          ∀ th' ∈ ths, (prog.check_eoi th'.state).isSome →
            th.start_idx ≤ th'.start_idx := by
  intro ths
  induction ths with
  | nil =>
      intro _ r hr
      rw [eoiScan] at hr
      cases hr
  | cons th rest ih =>
      intro hsorted r hr
      rw [List.map_cons, List.sorted_cons] at hsorted
      rw [eoiScan] at hr
      cases hc : prog.check_eoi th.state with
      | some b =>
          rw [hc] at hr
          cases hr
          refine ⟨th, List.mem_cons_self th rest, b, hc, rfl, ?_⟩
          intro th' hth' _
          rcases List.mem_cons.mp hth' with rfl | h'
          · exact Nat.le_refl _
          · exact hsorted.1 th'.start_idx (List.mem_map.mpr ⟨th', h', rfl⟩)
      | none =>
          rw [hc] at hr
          obtain ⟨th0, hth0, b, hb, hrb, hmin⟩ := ih hsorted.2 r hr
          refine ⟨th0, List.mem_cons_of_mem th hth0, b, hb, hrb, ?_⟩
          intro th' hth' hacc
          rcases List.mem_cons.mp hth' with rfl | h'
          · rw [hc] at hacc
            cases hacc
          · exact hmin th' h' hacc

/-- C10.  Throughout the threaded engine's main loop, the current
generation's thread vector is sorted by non-decreasing start offset;
consequently `starts_after` (which inspects only `threads[0]`) decides
whether every surviving thread started at or after a given offset, and the
end-of-input scan returns an earliest-starting accepting thread. -/
theorem c10_cur_sorted_by_start (prog : Program) (pf : Pfx)
    (input : List Byte) (n : Nat) (c0 c : TMCfg)
    (h0 : tmInitCfg prog pf input = some c0)
    (hr : tmReach prog pf input n c0 = some c) :
    StartsSorted c.cur ∧
      (∀ k, c.cur.starts_after k = true ↔
        ∀ th ∈ c.cur.threads, k ≤ th.start_idx) ∧
      (∀ r, eoiScan prog input c.cur.threads = some r →
        ∃ th ∈ c.cur.threads, ∃ b, prog.check_eoi th.state = some b ∧
          r = (th.start_idx, input.length - b) ∧
          ∀ th' ∈ c.cur.threads, (prog.check_eoi th'.state).isSome →
            th.start_idx ≤ th'.start_idx) := by
  have hinv := tmReach_sorted n c0 c (tmInit_sorted h0) hr
  exact ⟨hinv.1, fun k => starts_after_iff c.cur hinv.1 k,
    fun r => eoiScan_min prog input c.cur.threads hinv.1 r⟩

/-- Witness for C10 at the configuration of `exProgC` on `"aaa"` reached
after one iteration. -/
theorem c10_cur_sorted_by_start_witness :
    StartsSorted (⟨[⟨1, 0⟩, ⟨0, 1⟩], [1, 1]⟩ : Threads) ∧
      (∀ k, Threads.starts_after ⟨[⟨1, 0⟩, ⟨0, 1⟩], [1, 1]⟩ k = true ↔
        ∀ th ∈ ([⟨1, 0⟩, ⟨0, 1⟩] : List Thread), k ≤ th.start_idx) ∧
      (∀ r, eoiScan exProgC wordAaa [⟨1, 0⟩, ⟨0, 1⟩] = some r →
        ∃ th ∈ ([⟨1, 0⟩, ⟨0, 1⟩] : List Thread), ∃ b,
          exProgC.check_eoi th.state = some b ∧
          r = (th.start_idx, wordAaa.length - b) ∧
          ∀ th' ∈ ([⟨1, 0⟩, ⟨0, 1⟩] : List Thread),
            (exProgC.check_eoi th'.state).isSome →
            th.start_idx ≤ th'.start_idx) :=
  c10_cur_sorted_by_start exProgC .Empty wordAaa 1
    ⟨0, none, ⟨[⟨0, 0⟩], [0, 0]⟩, ⟨[], [0, 0]⟩, ⟨1, []⟩⟩
    ⟨1, none, ⟨[⟨1, 0⟩, ⟨0, 1⟩], [1, 1]⟩, ⟨[], [0, 0]⟩, ⟨1, []⟩⟩
    (by decide) (by decide)

/-- A found position is inside the scanned suffix. -/
theorem position_lt_length {p : Byte → Bool} :
    ∀ {l : List Byte} {i : Nat}, position p l = some i → i < l.length := by
  intro l
  induction l with
  | nil =>
      intro i h
      rw [position] at h
      cases h
  | cons c rest ih =>
      intro i h
      rw [position] at h
      by_cases hc : p c
      · rw [if_pos hc] at h
        cases h
        simp
      · rw [if_neg hc] at h
        obtain ⟨j, hj, rfl⟩ := Option.map_eq_some'.mp h
        have := ih hj
        simp only [List.length_cons]
        omega

/-- A found substring occurrence fits inside the haystack. -/
theorem searchIn_le {needle hay : List Byte} {i : Nat}
    (h : searchIn needle hay = some i) : i + needle.length ≤ hay.length := by
  rw [searchIn] at h
  have hp := List.find?_some h
  have hp' : decide (i + needle.length ≤ hay.length ∧
      (hay.drop i).take needle.length = needle) = true := hp
  exact (of_decide_eq_true hp').1

/-- Every skip-function result is a well-formed span of the scanned
suffix. -/
theorem pfxSkip_bounds {pf : Pfx} {suffix : List Byte} {se : Nat × Nat}
    (h : pfxSkip pf suffix = some se) : se.1 ≤ se.2 ∧ se.2 ≤ suffix.length := by
  cases pf with
  | Empty =>
      simp only [pfxSkip] at h
      cases h
      exact ⟨Nat.le_refl _, Nat.zero_le _⟩
  | Byte b =>
      simp only [pfxSkip] at h
      obtain ⟨x, hx, rfl⟩ := Option.map_eq_some'.mp h
      exact ⟨Nat.le_refl _, Nat.le_of_lt (position_lt_length hx)⟩
  | ByteSet bs =>
      simp only [pfxSkip] at h
      obtain ⟨x, hx, rfl⟩ := Option.map_eq_some'.mp h
      exact ⟨Nat.le_refl _, Nat.le_of_lt (position_lt_length hx)⟩
  | Lit l =>
      simp only [pfxSkip] at h
      obtain ⟨x, hx, rfl⟩ := Option.map_eq_some'.mp h
      have := searchIn_le hx
      exact ⟨Nat.le_refl _, by omega⟩
  | LoopWhile bs =>
      simp only [pfxSkip] at h
      cases h
      exact ⟨Nat.zero_le _, (List.takeWhile_sublist _).length_le⟩
  | Ac pats smap =>
      simp only [pfxSkip] at h
      cases h

/-- Every overlapping match produced by the model of the multi-pattern
automaton is a well-formed span of the scanned text. -/
theorem findOverlapping_wf {pats : List (List Byte)} {text : List Byte}
    {m : Nat × Nat × Nat} (h : m ∈ findOverlapping pats text) :
    m.1 ≤ m.2.1 ∧ m.2.1 ≤ text.length := by
  rw [findOverlapping] at h
  obtain ⟨e, he, hm⟩ := List.mem_flatMap.mp h
  obtain ⟨pip, hpip, hsome⟩ := List.mem_filterMap.mp hm
  rw [List.mem_range] at he
  split at hsome
  · cases hsome
    dsimp only
    exact ⟨Nat.sub_le _ _, by omega⟩
  · cases hsome

/-- A fresh searcher state is well-formed. -/
theorem mkSearcher_wf (pf : Pfx) (input : List Byte) :
    SearcherWF input (mkSearcher pf input) := by
  cases pf <;> intro m hm <;> dsimp only [mkSearcher] at hm
  case Ac pats smap => exact findOverlapping_wf hm
  all_goals cases hm

/-- `skip_to` preserves searcher well-formedness. -/
theorem skipTo_wf (pf : Pfx) (input : List Byte) (p : Nat) (st : SearchState)
    (hwf : SearcherWF input st) :
    SearcherWF input (searcherSkipTo pf input p st) := by
  cases pf
  case Ac pats smap =>
    intro m hm
    dsimp only [searcherSkipTo] at hm
    by_cases hp : p > input.length
    · rw [if_pos hp] at hm
      have := findOverlapping_wf hm
      exact ⟨this.1, le_trans this.2 (by simp)⟩
    · rw [if_neg hp] at hm
      have := findOverlapping_wf hm
      refine ⟨this.1, le_trans this.2 ?_⟩
      rw [List.length_drop]
      omega
  all_goals
    intro m hm
    dsimp only [searcherSkipTo] at hm
    exact hwf m hm

/-- Every result of `search` is a well-formed span of the input, and the
searcher state stays well-formed. -/
theorem search_wf {pf : Pfx} {input : List Byte} {st : SearchState}
    (hwf : SearcherWF input st) {res : PfxResult} {st' : SearchState}
    (h : searcherSearch pf input st = some (res, st')) :
    res.start_pos ≤ res.end_pos ∧ res.end_pos ≤ input.length ∧
      SearcherWF input st' := by
  cases pf
  case Ac pats smap =>
    simp only [searcherSearch] at h
    cases hit : st.acIter with
    | nil =>
        rw [hit] at h
        cases h
    | cons m rest =>
        rw [hit] at h
        cases h
        have hm := hwf m (by rw [hit]; exact List.mem_cons_self m rest)
        refine ⟨hm.1, hm.2, ?_⟩
        intro m' hm'
        exact hwf m' (by rw [hit]; exact List.mem_cons_of_mem m hm')
  all_goals
    simp only [searcherSearch] at h
    split at h
    · cases h
    · split at h
      · rename_i se hs
        cases h
        have hb := pfxSkip_bounds hs
        rw [List.length_drop] at hb
        dsimp only
        refine ⟨by omega, by omega, ?_⟩
        intro m' hm'
        exact hwf m' hm'
      · cases h

/-- A successful `check_eoi` returns an entry of `accept_at_eoi` that is
not the sentinel. -/
theorem check_eoi_mem {prog : Program} {state b : Nat}
    (h : prog.check_eoi state = some b) :
    b ∈ prog.accept_at_eoi ∧ b ≠ USIZE_MAX := by
  rw [Program.check_eoi] at h
  split at h
  · rename_i hne
    cases h
    by_cases hlt : state < prog.accept_at_eoi.length
    · have hidx : prog.accept_at_eoi.getD state USIZE_MAX =
          prog.accept_at_eoi[state] := by
        rw [List.getD_eq_getElem?_getD, List.getElem?_eq_getElem hlt]
        rfl
      rw [hidx]
      rw [hidx] at hne
      exact ⟨List.getElem_mem hlt, hne⟩
    · push_neg at hlt
      exact absurd (getD_out_of_range hlt _) hne
  · cases h

/-- The single-thread simulation only reports ends inside the text; with
zero lookback the reported end is at or after the simulation start. -/
theorem smfAux_bounds (prog : Program) (input : List Byte) :
    ∀ (gas pos state e : Nat), pos + gas ≤ input.length →
      smfAux prog input gas pos state = some e →
      e ≤ input.length ∧ (ZeroLookback prog → pos ≤ e) := by
  intro gas
  induction gas with
  | zero =>
      intro pos state e hle h
      rw [smfAux] at h
      obtain ⟨b, hb, rfl⟩ := Option.map_eq_some'.mp h
      refine ⟨Nat.sub_le _ _, ?_⟩
      intro hz
      obtain ⟨hmem, hne⟩ := check_eoi_mem hb
      rcases hz.2 b hmem with hMAX | h0
      · exact absurd hMAX hne
      · subst h0
        omega
  | succ gas ih =>
      intro pos state e hle h
      rw [smfAux] at h
      cases h2 : (prog.step state (input.drop pos)).2 with
      | some b =>
          rw [h2] at h
          cases h
          refine ⟨by omega, ?_⟩
          intro hz
          have hb0 := hz.1 state (input.drop pos) b h2
          subst hb0
          omega
      | none =>
          rw [h2] at h
          cases h1 : (prog.step state (input.drop pos)).1 with
          | some ns =>
              rw [h1] at h
              have := ih (pos + 1) ns e (by omega) h
              exact ⟨this.1, fun hz => le_trans (Nat.le_succ _) (this.2 hz)⟩
          | none =>
              rw [h1] at h
              cases h

/-- Every match the backtracking candidate loop reports lies inside the
text; with zero lookback the span is well-ordered. -/
theorem btLoop_bounds (prog : Program) (pf : Pfx) (input : List Byte) :
    ∀ (fuel : Nat) (st : SearchState), SearcherWF input st →
      ∀ s e, btLoop prog pf input fuel st = some (s, e) →
        s ≤ input.length ∧ e ≤ input.length ∧
          (ZeroLookback prog → s ≤ e) := by
  intro fuel
  induction fuel with
  | zero =>
      intro st hwf s e h
      rw [btLoop] at h
      cases h
  | succ fuel ih =>
      intro st hwf s e h
      rw [btLoop] at h
      cases hs : searcherSearch pf input st with
      | none =>
          rw [hs] at h
          cases h
      | some rs =>
          obtain ⟨res, st2⟩ := rs
          rw [hs] at h
          dsimp only at h
          obtain ⟨h1, h2, hwf'⟩ := search_wf hwf hs
          cases hm : shortest_match_from prog input res.end_pos res.end_state
            with
          | some e0 =>
              rw [hm] at h
              cases h
              rw [shortest_match_from] at hm
              have hb := smfAux_bounds prog input _ _ _ _ (by omega) hm
              exact ⟨by omega, hb.1, fun hz => le_trans h1 (hb.2 hz)⟩
          | none =>
              rw [hm] at h
              exact ih st2 hwf' s e h

/-- Advancing a generation keeps the accumulated best acceptance a
well-ordered span inside the text. -/
theorem advance_fold_acc_bounds (prog : Program) (input : List Byte)
    (pos : Nat) :
    ∀ (ths : List Thread) (cs : List Nat) (nx : Threads)
      (ac : Option (Nat × Nat)),
      (∀ th ∈ ths, th.start_idx ≤ pos) →
      (∀ a, ac = some a → a.1 ≤ a.2 ∧ a.2 ≤ input.length) →
      pos ≤ input.length →
      ∀ a, (ths.foldl (advance_thread prog input pos) (cs, nx, ac)).2.2
          = some a →
        a.1 ≤ a.2 ∧ a.2 ≤ input.length := by
  intro ths
  induction ths with
  | nil =>
      intro cs nx ac hth hac hpos a ha
      exact hac a ha
  | cons th rest ih =>
      intro cs nx ac hth hac hpos a ha
      rw [List.foldl_cons, advance_thread_eq] at ha
      refine ih _ _ _ (fun th' h' => hth th' (List.mem_cons_of_mem th h'))
        ?_ hpos a ha
      intro a' ha'
      cases h2 : (prog.step th.state (input.drop pos)).2 with
      | none =>
          rw [h2] at ha'
          exact hac a' ha'
      | some b =>
          rw [h2] at ha'
          cases hacc : ac with
          | none =>
              rw [hacc] at ha'
              cases ha'
              have := hth th (List.mem_cons_self th rest)
              dsimp only
              exact ⟨by omega, hpos⟩
          | some a0 =>
              rw [hacc] at ha'
              dsimp only at ha'
              by_cases hlt : th.start_idx - b < a0.1
              · rw [if_pos hlt] at ha'
                cases ha'
                have := hth th (List.mem_cons_self th rest)
                dsimp only
                exact ⟨by omega, hpos⟩
              · rw [if_neg hlt] at ha'
                cases ha'
                exact hac _ hacc

/-- The end-of-input scan reports spans inside the text; with zero lookback
the span is well-ordered. -/
theorem eoiScan_bounds (prog : Program) (input : List Byte) :
    ∀ (ths : List Thread), (∀ th ∈ ths, th.start_idx ≤ input.length) →
      ∀ p, eoiScan prog input ths = some p →
        p.1 ≤ input.length ∧ p.2 ≤ input.length ∧
          (ZeroLookback prog → p.1 ≤ p.2) := by
  intro ths
  induction ths with
  | nil =>
      intro _ p hp
      rw [eoiScan] at hp
      cases hp
  | cons th rest ih =>
      intro hth p hp
      rw [eoiScan] at hp
      cases hc : prog.check_eoi th.state with
      | some b =>
          rw [hc] at hp
          cases hp
          refine ⟨hth th (List.mem_cons_self th rest), Nat.sub_le _ _, ?_⟩
          intro hz
          obtain ⟨hmem, hne⟩ := check_eoi_mem hc
          rcases hz.2 b hmem with hMAX | h0
          · exact absurd hMAX hne
          · subst h0
            exact hth th (List.mem_cons_self th rest)
      | none =>
          rw [hc] at hp
          exact ih (fun th' h' => hth th' (List.mem_cons_of_mem th h')) p hp

/-- One loop iteration preserves the bounds invariant, and any result it
returns lies inside the text (well-ordered under zero lookback). -/
theorem tmStep_bounds {prog : Program} {pf : Pfx} {input : List Byte}
    {c : TMCfg} (hinv : BoundsInv input c) :
    (∀ r, tmStep prog pf input c = .done r →
      ∀ p, r = some p → p.1 ≤ input.length ∧ p.2 ≤ input.length ∧
        (ZeroLookback prog → p.1 ≤ p.2)) ∧
    (∀ c', tmStep prog pf input c = .cont c' → BoundsInv input c') := by
  obtain ⟨hpos, hle, hnext, hacc, hwf⟩ := hinv
  have hfoldacc := advance_fold_acc_bounds prog input c.pos c.cur.threads
    c.cur.states c.next c.acc hle hacc hpos
  have hsub := advance_fold_starts_sublist prog input c.pos c.cur.threads
    c.cur.states c.next c.acc
  rw [hnext] at hsub
  simp only [List.map_nil, List.nil_append] at hsub
  have hle' : StartsLe (tmAdvanced prog input c).2.1 c.pos := by
    intro th hth
    have hmem : th.start_idx ∈
        (tmAdvanced prog input c).2.1.threads.map Thread.start_idx :=
      List.mem_map.mpr ⟨th, hth, rfl⟩
    obtain ⟨th0, hth0, heq⟩ := List.mem_map.mp (hsub.subset hmem)
    exact heq ▸ hle th0 hth0
  constructor
  · intro r hr p hp
    rw [tmStep] at hr
    by_cases hp0 : c.pos < input.length
    · rw [if_pos hp0] at hr
      dsimp only at hr
      split at hr
      · cases hr
        have := hfoldacc p hp
        exact ⟨le_trans this.1 this.2, this.2, fun _ => this.1⟩
      · split at hr
        · split at hr
          · cases hr
          · cases hr
            cases hp
        · cases hr
    · rw [if_neg hp0] at hr
      cases hr
      exact eoiScan_bounds prog input c.cur.threads
        (fun th h => le_trans (hle th h) hpos) p hp
  · intro c' hc'
    rw [tmStep] at hc'
    by_cases hp0 : c.pos < input.length
    · rw [if_pos hp0] at hc'
      dsimp only at hc'
      split at hc'
      · cases hc'
      · split at hc'
        · rename_i hempty
          split at hc'
          · rename_i rs hrs
            cases hc'
            have hwf2 := skipTo_wf pf input (c.pos + 1) c.search hwf
            obtain ⟨hs1, hs2, hwf3⟩ := search_wf hwf2 hrs
            have hcur : (tmAdvanced prog input c).2.1.threads = [] :=
              List.isEmpty_iff.mp hempty
            refine ⟨by dsimp only; omega, ?_, rfl, fun a ha => hfoldacc a ha,
              hwf3⟩
            intro th hth
            rcases add_threads_cases (tmAdvanced prog input c).2.1 0
              rs.1.start_pos with hadd | hadd
            · rw [hadd, hcur] at hth
              simp only [List.nil_append, List.mem_singleton] at hth
              subst hth
              exact Nat.le_refl _
            · rw [hadd, hcur] at hth
              simp at hth
          · cases hc'
        · cases hc'
          refine ⟨by dsimp only; omega, ?_, rfl, fun a ha => hfoldacc a ha,
            hwf⟩
          intro th hth
          rcases add_threads_cases (tmAdvanced prog input c).2.1 0 (c.pos + 1)
            with hadd | hadd
          · rw [hadd] at hth
            rcases List.mem_append.mp hth with h | h
            · exact Nat.le_succ_of_le (hle' th h)
            · simp only [List.mem_singleton] at h
              subst h
              exact Nat.le_refl _
          · rw [hadd] at hth
            exact Nat.le_succ_of_le (hle' th hth)
    · rw [if_neg hp0] at hc'
      cases hc'

/-- Any result of the fuelled threaded main loop lies inside the text
(well-ordered under zero lookback). -/
theorem tmRun_bounds {prog : Program} {pf : Pfx} {input : List Byte} :
    ∀ (fuel : Nat) (c : TMCfg), BoundsInv input c →
      ∀ r, tmRun prog pf input fuel c = some r →
        ∀ p, r = some p → p.1 ≤ input.length ∧ p.2 ≤ input.length ∧
          (ZeroLookback prog → p.1 ≤ p.2) := by
  intro fuel
  induction fuel with
  | zero =>
      intro c hinv r hr
      rw [tmRun] at hr
      cases hr
  | succ fuel ih =>
      intro c hinv r hr
      rw [tmRun] at hr
      cases hstep : tmStep prog pf input c with
      | done r0 =>
          rw [hstep] at hr
          cases hr
          exact (tmStep_bounds hinv).1 _ hstep
      | cont c'' =>
          rw [hstep] at hr
          exact ih c'' ((tmStep_bounds hinv).2 c'' hstep) r hr

/-- The initial configuration satisfies the bounds invariant. -/
theorem tmInit_bounds {prog : Program} {pf : Pfx} {input : List Byte}
    {c0 : TMCfg} (h : tmInitCfg prog pf input = some c0) :
    BoundsInv input c0 := by
  rw [tmInitCfg] at h
  cases hs : searcherSearch pf input (mkSearcher pf input) with
  | none =>
      rw [hs] at h
      cases h
  | some rs =>
      rw [hs] at h
      cases h
      obtain ⟨h1, h2, hwf'⟩ := search_wf (mkSearcher_wf pf input) hs
      refine ⟨by dsimp only; omega, ?_, rfl, ?_, hwf'⟩
      · intro th hth
        simp only [List.mem_singleton] at hth
        subst hth
        exact Nat.le_refl _
      · intro a ha
        cases ha

/-- The empty-match fallback only ever reports the span
`(len(text), len(text))`. -/
theorem check_empty_pair {prog : Program} {input : List Byte} {p : Nat × Nat}
    (h : prog.check_empty_match_at_end input = some p) :
    p = (input.length, input.length) := by
  rw [Program.check_empty_match_at_end] at h
  cases hsp : prog.init.state_at_pos input input.length with
  | none =>
      rw [hsp] at h
      cases h
  | some state =>
      rw [hsp] at h
      dsimp only at h
      by_cases hac : prog.accept_at_eoi.getD state USIZE_MAX ≠ USIZE_MAX
      · rw [if_pos hac] at h
        cases h
        rfl
      · rw [if_neg hac] at h
        cases h

/-- C2 (amended).  For both engines, every program, every prefix and every
input text, a reported match `(s, e)` satisfies `s ≤ len(text)` and
`e ≤ len(text)`; if moreover the program reports no lookback (all its
accept data are zero), then also `s ≤ e`. -/
theorem c2_match_offsets_bounded (prog : Program) (pf : Pfx)
    (input : List Byte) (fuel : Nat) (s e : Nat)
    (h : btShortestMatch prog pf input = some (s, e) ∨
      tmShortestMatch prog pf input fuel = some (s, e)) :
    (s ≤ input.length ∧ e ≤ input.length) ∧
      (ZeroLookback prog → s ≤ e) := by
  rcases h with h | h
  · rw [btShortestMatch] at h
    split at h
    · cases h
    · split at h
      · obtain ⟨x, hx, hmk⟩ := Option.map_eq_some'.mp h
        rw [shortest_match_from] at hx
        have hb := smfAux_bounds prog input _ _ _ _ (by omega) hx
        cases hmk
        exact ⟨⟨Nat.zero_le _, hb.1⟩, fun _ => Nat.zero_le _⟩
      · have := btLoop_bounds prog pf input (btFuel pf input)
          (mkSearcher pf input) (mkSearcher_wf pf input) s e h
        exact ⟨⟨this.1, this.2.1⟩, this.2.2⟩
  · rw [tmShortestMatch] at h
    split at h
    · cases h
    · split at h
      · rename_i r hr
        cases h
        rw [tmMatchAux] at hr
        cases hinit : tmInitCfg prog pf input with
        | none =>
            rw [hinit] at hr
            cases hr
        | some c0 =>
            rw [hinit] at hr
            have := tmRun_bounds fuel c0 (tmInit_bounds hinit) _ hr (s, e) rfl
            exact ⟨⟨this.1, this.2.1⟩, this.2.2⟩
      · have := check_empty_pair h
        cases this
        exact ⟨⟨Nat.le_refl _, Nat.le_refl _⟩, fun _ => Nat.le_refl _⟩
      · cases h

/-- Witness for the amended C2: the backtracking engine on `exProgA` (a
zero-lookback program) over `"baa"`. -/
theorem c2_match_offsets_bounded_witness :
    ((1 ≤ wordBaa.length ∧ 2 ≤ wordBaa.length) ∧
      (ZeroLookback exProgA → 1 ≤ 2)) :=
  c2_match_offsets_bounded exProgA .Empty wordBaa 10 1 2 (Or.inl (by decide))

end DfaRunner
